import Mathlib

/-!
Verification of the qping target enumerator, range compressor, probe
scheduler and exit-code logic.  C++ strings are embedded as lists of
characters, 32-bit unsigned arithmetic as natural numbers reduced mod 2^32
where the code can wrap.  Functions keep the names of the source where Lean
allows it.  External platform primitives (InetPtonA, strtol) are modelled
from their documented behaviour, marked in their doc comments.
-/

set_option maxRecDepth 1000000

namespace qping

/-- Embedding of std::string: a list of characters. -/
abbrev Str := List Char

/-- Helper of split from target.cpp: acc holds the fragment begun so far.
The final fragment is appended only when nonempty, so a trailing delimiter
yields no empty part, exactly as the source loop with its start < length
guard. -/
def splitGo (delim : Char) (acc : Str) : Str → List Str
  | [] => if acc.isEmpty then [] else [acc]
  | c :: cs =>
    if c = delim then acc :: splitGo delim [] cs
    else splitGo delim (acc ++ [c]) cs

/-- split from target.cpp: splits on a delimiter character. -/
def split (s : Str) (delim : Char) : List Str := splitGo delim [] s

/-- Space predicate of the C isspace function in the default locale. -/
def isCSpace (c : Char) : Bool :=
  c = ' ' || c = '\t' || c = '\n' || c = '\x0b' || c = '\x0c' || c = '\r'

/-- Decimal value of a run of digit characters. -/
def digitsVal (l : Str) : Nat :=
  l.foldl (fun a c => a * 10 + (c.toNat - '0'.toNat)) 0

/-- parse_int from target.cpp, on top of a model of the C strtol in base 10
with the 32-bit long of Windows: optional leading spaces, optional sign, a
nonempty digit run, clamping on overflow; fails unless the whole string is
consumed and at least one digit was read (end != str and *end == 0 in the
source).  The (int) cast of the source is the identity on a 32-bit long. -/
def parse_int (s : Str) : Option Int :=
  let s1 := s.dropWhile isCSpace
  let signed : Bool × Str :=
    match s1 with
    | '-' :: r => (true, r)
    | '+' :: r => (false, r)
    | _ => (false, s1)
  let digs := signed.2.takeWhile Char.isDigit
  let rest := signed.2.drop digs.length
  if digs.isEmpty || !rest.isEmpty then none
  else
    let v : Int := if signed.1 then -(digitsVal digs : Int) else (digitsVal digs : Int)
    some (max (-2147483648) (min 2147483647 v))

/-- Full split used only inside the InetPtonA models: n delimiters yield
n+1 fragments, a trailing delimiter yields a trailing empty fragment. -/
def splitAll (delim : Char) : Str → List Str
  | [] => [[]]
  | c :: cs =>
    match splitAll delim cs with
    | [] => [[]]
    | h :: t => if c = delim then [] :: h :: t else (c :: h) :: t

/-- Modelled from the spec: one dotted-decimal octet as accepted by the
platform InetPtonA(AF_INET, ...) parser, which is external to this
repository: one to three decimal digits, no leading zero except the single
digit 0, value at most 255. -/
def pton4Octet (s : Str) : Option Nat :=
  if s.isEmpty then none
  else if !s.all Char.isDigit then none
  else if s.length > 3 then none
  else if s.head? = some '0' && s.length ≠ 1 then none
  else
    let v := digitsVal s
    if v ≤ 255 then some v else none

/-- Modelled from the spec: the platform InetPtonA(AF_INET, ...) parser
combined with ntohl, which are external to this repository, returning the
host-order 32-bit value of a strict dotted-quad literal. -/
def pton4 (s : Str) : Option Nat :=
  match splitAll '.' s with
  | [p1, p2, p3, p4] =>
    match pton4Octet p1, pton4Octet p2, pton4Octet p3, pton4Octet p4 with
    | some a, some b, some c, some d => some (((a * 256 + b) * 256 + c) * 256 + d)
    | _, _, _, _ => none
  | _ => none

/-- is_ipv6_address from target.cpp: a colon marks an IPv6-shaped string. -/
def is_ipv6_address (s : Str) : Bool := s.contains ':'

/-- Modelled from the spec: the platform InetPtonA(AF_INET6, ...) validator
is external to this repository; simplified model: colon-separated groups of
at most four hexadecimal digits, at most eight groups, at most three empty
groups (covering the double-colon abbreviation forms). -/
def pton6 (s : Str) : Bool :=
  let gs := splitAll ':' s
  gs.length ≤ 8 &&
    gs.all (fun g => g.length ≤ 4 &&
      g.all fun c => c.isDigit || ('a' ≤ c && c ≤ 'f') || ('A' ≤ c && c ≤ 'F')) &&
    gs.countP List.isEmpty ≤ 3

/-- is_valid_ipv6_address from target.cpp, over the modelled validator. -/
def is_valid_ipv6_address (s : Str) : Bool := pton6 s

/-- is_valid_ipv4_address from target.cpp, over the modelled parser. -/
def is_valid_ipv4_address (s : Str) : Bool := (pton4 s).isSome

/-- ip_to_uint32 from target.cpp: parse failure maps to 0. -/
def ip_to_uint32 (s : Str) : Nat := (pton4 s).getD 0

/-- Decimal rendering of one octet value, as the printf conversions of the
source produce it. -/
def octStr (n : Nat) : Str := (Nat.repr n).data

/-- ip_to_string from target.cpp; the (ip >> k) & 0xFF octet extractions are
written with mod 256. -/
def ip_to_string (ip : Nat) : Str :=
  octStr ((ip >>> 24) % 256) ++
    ('.' :: (octStr ((ip >>> 16) % 256) ++
      ('.' :: (octStr ((ip >>> 8) % 256) ++ ('.' :: octStr (ip % 256))))))

/-! Octet-level round-trip facts, proved once by evaluation over all 256
octet values and then lifted pointwise. -/

set_option maxRecDepth 100000 in
theorem octet_pack :
    ((List.range 256).all fun n =>
      pton4Octet (octStr n) == some n && (octStr n).all Char.isDigit) = true := by
  decide

theorem octet_roundtrip {n : Nat} (h : n < 256) : pton4Octet (octStr n) = some n := by
  have h1 := List.all_eq_true.mp octet_pack n (List.mem_range.mpr h)
  have h2 := (Bool.and_eq_true _ _).mp h1
  exact eq_of_beq h2.1

theorem octet_digits {n : Nat} (h : n < 256) : (octStr n).all Char.isDigit = true := by
  have h1 := List.all_eq_true.mp octet_pack n (List.mem_range.mpr h)
  exact ((Bool.and_eq_true _ _).mp h1).2

theorem octet_not_mem {n : Nat} (h : n < 256) {c : Char} (hc : c.isDigit = false) :
    c ∉ octStr n := by
  intro hmem
  have := List.all_eq_true.mp (octet_digits h) c hmem
  rw [hc] at this
  exact Bool.false_ne_true this

theorem splitAll_no_delim {d : Char} {l : Str} (h : d ∉ l) : splitAll d l = [l] := by
  induction l with
  | nil => rfl
  | cons c cs ih =>
    have hc : c ≠ d := fun hcd => h (hcd ▸ List.mem_cons_self c cs)
    have hcs : d ∉ cs := fun hm => h (List.mem_cons_of_mem c hm)
    simp [splitAll, ih hcs, hc]

theorem splitAll_append {d : Char} {l : Str} (h : d ∉ l) (r : Str) :
    splitAll d (l ++ d :: r) = l :: splitAll d r := by
  induction l with
  | nil =>
    simp only [List.nil_append, splitAll]
    match hr : splitAll d r with
    | [] => simp
    | h :: t => simp
  | cons c cs ih =>
    have hc : c ≠ d := fun hcd => h (hcd ▸ List.mem_cons_self c cs)
    have hcs : d ∉ cs := fun hm => h (List.mem_cons_of_mem c hm)
    simp only [List.cons_append, splitAll, List.append_eq, ih hcs, hc, if_false]

theorem pton4_ip_to_string {x : Nat} (h : x < 2 ^ 32) :
    pton4 (ip_to_string x) = some x := by
  have ha : (x >>> 24) % 256 < 256 := Nat.mod_lt _ (by norm_num)
  have hb : (x >>> 16) % 256 < 256 := Nat.mod_lt _ (by norm_num)
  have hc : (x >>> 8) % 256 < 256 := Nat.mod_lt _ (by norm_num)
  have hd : x % 256 < 256 := Nat.mod_lt _ (by norm_num)
  have hdot : ('.' : Char).isDigit = false := by decide
  rw [pton4, ip_to_string]
  rw [splitAll_append (octet_not_mem ha hdot),
      splitAll_append (octet_not_mem hb hdot),
      splitAll_append (octet_not_mem hc hdot),
      splitAll_no_delim (octet_not_mem hd hdot)]
  simp only [octet_roundtrip ha, octet_roundtrip hb, octet_roundtrip hc, octet_roundtrip hd]
  have e24 : x >>> 24 = x / 2 ^ 24 := Nat.shiftRight_eq_div_pow x 24
  have e16 : x >>> 16 = x / 2 ^ 16 := Nat.shiftRight_eq_div_pow x 16
  have e8 : x >>> 8 = x / 2 ^ 8 := Nat.shiftRight_eq_div_pow x 8
  rw [e24, e16, e8]
  congr 1
  omega

/-- C9: converting any 32-bit value to its dotted-decimal string and parsing
that string back yields the value again. -/
theorem ip_roundtrip (x : Nat) (h : x < 2 ^ 32) :
    ip_to_uint32 (ip_to_string x) = x := by
  rw [ip_to_uint32, pton4_ip_to_string h]
  rfl

/-- Witness for ip_roundtrip at the value of 192.168.1.1. -/
theorem ip_roundtrip_witness :
    3232235777 < 2 ^ 32 ∧ ip_to_uint32 (ip_to_string 3232235777) = 3232235777 :=
  ⟨by norm_num, ip_roundtrip 3232235777 (by norm_num)⟩

/-! Embedding of enumerate_targets from target.cpp.  Its out parameter is
returned as the list of strings a call appends; the Bool is the return
value of the source function. -/

/-- Network mask of the CIDR branch: (~0u << (32 - prefix)) for a nonzero
prefix and 0 otherwise, the shift taken as 32-bit unsigned. -/
def cidrMask (prefixLen : Nat) : Nat :=
  if prefixLen = 0 then 0 else ((2 ^ 32 - 1) <<< (32 - prefixLen)) % 2 ^ 32

/-- Unsigned 32-bit complement, the ~mask of the source. -/
def compl32 (m : Nat) : Nat := 2 ^ 32 - 1 - m

/-- Rendering of the snprintf %d.%d.%d.%d buffers of the source. -/
def quadStr (a b c d : Nat) : Str :=
  octStr a ++ ('.' :: (octStr b ++ ('.' :: (octStr c ++ ('.' :: octStr d)))))

/-- Host loop of the CIDR branch: for (cur = start; cur <= e and added <
cap; ++cur, ++added) push ip_to_string(cur).  The increment wraps as 32-bit
unsigned (reachable for the two topmost /31 tokens, where e is the all-ones
address).  The fuel argument of the helper is cap - added, exactly the
number of iterations the added < cap guard still admits, so the wrapper is
a faithful rendering of the loop. -/
def cidrLoopF : Nat → Nat → Nat → Nat → Nat → List Str
  | 0, _, _, _, _ => []
  | fuel + 1, cur, e, added, cap =>
    if cur ≤ e ∧ added < cap then
      ip_to_string cur :: cidrLoopF fuel ((cur + 1) % 2 ^ 32) e (added + 1) cap
    else []

/-- Wrapper giving the CIDR host loop its fuel. -/
def cidrLoop (cur e added cap : Nat) : List Str :=
  cidrLoopF (cap - added) cur e added cap

/-- Last-octet emission loop shared by the a.b.c.d1-d2 branch and the
range pieces of the comma branch: for (d = d0; d <= d1 and added < cap;
++d, ++added) push the quad string; returns the emitted strings together
with the final added counter.  Octets are validated to [0,255] before the
loop runs, so the int arithmetic of the source cannot wrap and fuel
d1 + 1 - d0 covers every iteration. -/
def emitRangeF (a b c : Nat) : Nat → Nat → Nat → Nat → Nat → List Str × Nat
  | 0, _, _, added, _ => ([], added)
  | fuel + 1, d, d1, added, cap =>
    if d ≤ d1 ∧ added < cap then
      let r := emitRangeF a b c fuel (d + 1) d1 (added + 1) cap
      (quadStr a b c d :: r.1, r.2)
    else ([], added)

/-- Wrapper giving the last-octet loop its fuel. -/
def emitRange (a b c d0 d1 added cap : Nat) : List Str × Nat :=
  emitRangeF a b c (d1 + 1 - d0) d0 d1 added cap

/-- Nested loop of the three-segment branch: for (c = c0; c <= c1 and
added < cap; ++c) run the inner fourth-octet loop over 1..254 with the
shared added counter. -/
def thirdLoopF (a b : Nat) : Nat → Nat → Nat → Nat → Nat → List Str
  | 0, _, _, _, _ => []
  | fuel + 1, c, c1, added, cap =>
    if c ≤ c1 ∧ added < cap then
      let r := emitRange a b c 1 254 added cap
      r.1 ++ thirdLoopF a b fuel (c + 1) c1 r.2 cap
    else []

/-- Wrapper giving the three-segment loop its fuel. -/
def thirdLoop (a b c0 c1 added cap : Nat) : List Str :=
  thirdLoopF a b (c1 + 1 - c0) c0 c1 added cap

/-- Parse of one octet component: parse_int followed by the [0,255] bounds
checks the source applies to each component, fused into one helper. -/
def parse_octet (s : Str) : Option Nat :=
  match parse_int s with
  | some v => if 0 ≤ v ∧ v ≤ 255 then some v.toNat else none
  | none => none

/-- Split at the first occurrence of a delimiter: the substr pair around
find that the source forms for the dash and slash tokens.  When the
delimiter is absent the second component is empty. -/
def cutAt (delim : Char) (s : Str) : Str × Str :=
  let first := s.takeWhile (· ≠ delim)
  (first, s.drop (first.length + 1))

/-- Comma-list loop of enumerate_targets over the pieces of the last
segment.  Returns the success flag, the strings emitted up to the point of
return (the source has already appended them to out when a later piece
fails) and the final added counter. -/
def commaLoop (a b c cap : Nat) : List Str → Nat → Bool × List Str × Nat
  | [], added => (true, [], added)
  | p :: rest, added =>
    if p.isEmpty then commaLoop a b c cap rest added
    else if p.contains '-' then
      let lr := cutAt '-' p
      match parse_octet lr.1, parse_octet lr.2 with
      | some ds, some de =>
        let r := emitRange a b c (min ds de) (max ds de) added cap
        let k := commaLoop a b c cap rest r.2
        (k.1, r.1 ++ k.2.1, k.2.2)
      | _, _ => (false, [], added)
    else
      match parse_octet p with
      | some d =>
        if added < cap then
          let k := commaLoop a b c cap rest (added + 1)
          (k.1, quadStr a b c d :: k.2.1, k.2.2)
        else commaLoop a b c cap rest added
      | none => (false, [], added)

/-- CIDR branch of enumerate_targets: the body run when the token holds a
slash.  The part before the first slash is the address, everything after
it the prefix. -/
def cidrBranch (tok : Str) (max_hosts : Nat) : Bool × List Str :=
  let parts := cutAt '/' tok
  let ip_part := parts.1
  let pref_part := parts.2
  match parse_int pref_part with
  | none => (false, [])
  | some p =>
    if p < 0 ∨ 32 < p then (false, [])
    else
      match pton4 ip_part with
      | none => (false, [])
      | some ip =>
        let prefixLen := p.toNat
        if prefixLen = 32 then (true, [ip_part])
        else
          let mask := cidrMask prefixLen
          let network := ip &&& mask
          let broadcast := network ||| compl32 mask
          let se : Nat × Nat :=
            if 31 ≤ prefixLen then (network, broadcast)
            else (network + 1, broadcast - 1)
          (true, cidrLoop se.1 se.2 0 max_hosts)

/-- Range branch of enumerate_targets: the block run when the token holds a
dash and no comma; none models falling through to the code after it. -/
def rangeBranch (tok : Str) (max_hosts : Nat) : Option (Bool × List Str) :=
  if tok.contains '-' ∧ ¬ tok.contains ',' then
    let parts := split tok '.'
    if parts.length = 4 then
      let lastSeg := parts.getD 3 []
      if lastSeg.contains '-' then
        let lr := cutAt '-' lastSeg
        some (match parse_octet lr.1, parse_octet lr.2 with
          | some ds, some de =>
            match parse_octet (parts.getD 0 []), parse_octet (parts.getD 1 []),
                parse_octet (parts.getD 2 []) with
            | some a, some b, some c =>
              (true, (emitRange a b c (min ds de) (max ds de) 0 max_hosts).1)
            | _, _, _ => (false, [])
          | _, _ => (false, []))
      else none
    else if parts.length = 3 then
      let seg := parts.getD 2 []
      if seg.contains '-' then
        let lr := cutAt '-' seg
        some (match parse_octet lr.1, parse_octet lr.2 with
          | some cs, some ce =>
            match parse_octet (parts.getD 0 []), parse_octet (parts.getD 1 []) with
            | some a, some b =>
              (true, thirdLoop a b (min cs ce) (max cs ce) 0 max_hosts)
            | _, _ => (false, [])
          | _, _ => (false, []))
      else none
    else none
  else none

/-- Final block of enumerate_targets: the comma list on the last of four
segments, else a bare validated IPv4 literal. -/
def commaBranch (tok : Str) (max_hosts : Nat) : Bool × List Str :=
  let parts := split tok '.'
  if parts.length = 4 then
    if (parts.getD 3 []).contains ',' then
      match parse_octet (parts.getD 0 []), parse_octet (parts.getD 1 []),
          parse_octet (parts.getD 2 []) with
      | some a, some b, some c =>
        let r := commaLoop a b c max_hosts (split (parts.getD 3 []) ',') 0
        (r.1, r.2.1)
      | _, _, _ => (false, [])
    else if is_valid_ipv4_address tok then (true, [tok]) else (false, [])
  else if is_valid_ipv4_address tok then (true, [tok]) else (false, [])

/-- enumerate_targets from target.cpp. -/
def enumerate_targets (tok : Str) (max_hosts : Nat) : Bool × List Str :=
  if is_ipv6_address tok then
    (if is_valid_ipv6_address tok then (true, [tok]) else (false, []))
  else if tok.contains '/' then cidrBranch tok max_hosts
  else
    match rangeBranch tok max_hosts with
    | some r => r
    | none => commaBranch tok max_hosts

/-- Shape the final block of enumerate_targets tests before it runs the
comma-list loop: four dot-separated segments with a comma in the last
segment.  A token without this shape can never reach the comma loop, the
only emission site the function passes through before returning false. -/
def commaListShape (tok : Str) : Bool :=
  let parts := split tok '.'
  decide (parts.length = 4) && (parts.getD 3 []).contains ','

/-! Embedding of compress_ip_ranges from target.cpp. -/

/-- Insertion of one keyed address into a list sorted ascending by key.
The source sorts with std::sort under the comparator a.first < b.first,
which leaves the order of equal keys unspecified; the stable insertion
sort used here realises one of the permitted outcomes. -/
def insertByKey (x : Nat × Str) : List (Nat × Str) → List (Nat × Str)
  | [] => [x]
  | y :: ys => if x.1 < y.1 then x :: y :: ys else y :: insertByKey x ys

/-- Sort of the IPv4 pair list by numeric value. -/
def sortByKey : List (Nat × Str) → List (Nat × Str)
  | [] => []
  | x :: xs => insertByKey x (sortByKey xs)

/-- Partition pass of compress_ip_ranges: colon entries go to the IPv6
list, the rest are paired with their numeric value, and entries whose
value is 0 (which includes every unparseable entry) are dropped. -/
def partitionIps : List Str → List (Nat × Str) × List Str
  | [] => ([], [])
  | ip :: rest =>
    let r := partitionIps rest
    if is_ipv6_address ip then (r.1, ip :: r.2)
    else
      let val := ip_to_uint32 ip
      if val ≠ 0 then ((val, ip) :: r.1, r.2) else r

/-- Formatting of one maximal run, given its first and last pair: a
single value prints its stored string; a longer run prints the first
string, a dash, and either the last octet (same /24, the source masks
with 0xFFFFFF00 and takes end_ip & 0xFF) or the full last string. -/
def fmtRun (s e : Nat × Str) : Str :=
  if s.1 = e.1 then s.2
  else if s.1 &&& 0xFFFFFF00 = e.1 &&& 0xFFFFFF00 then
    s.2 ++ ('-' :: octStr (e.1 % 256))
  else s.2 ++ ('-' :: e.2)

/-- Scan of the sorted pair list: s is the pair at range_start, prev the
pair at the current index; a successor extends the run, anything else
closes it.  This is the while loop of the source in structural form. -/
def runsGo (s prev : Nat × Str) : List (Nat × Str) → List Str
  | [] => [fmtRun s prev]
  | q :: rest =>
    if q.1 = prev.1 + 1 then runsGo s q rest
    else fmtRun s prev :: runsGo q q rest

/-- Formatted runs of the whole sorted list. -/
def formatRuns : List (Nat × Str) → List Str
  | [] => []
  | x :: xs => runsGo x x xs

/-- Comma-space join, as the incremental result += of the source builds. -/
def joinComma (l : List Str) : Str := (l.intersperse ", ".data).flatten

/-- compress_ip_ranges from target.cpp. -/
def compress_ip_ranges (ips : List Str) : Str :=
  if ips.isEmpty then "(无)".data
  else
    let part := partitionIps ips
    let pieces := formatRuns (sortByKey part.1) ++ part.2
    let result := joinComma pieces
    if result.isEmpty then "(无)".data else result

/-- C2 counterexample: enumeration can fail with partial output.  The
comma-list branch of the token 1.2.3.1,999 appends the expansion of the
first piece before the out-of-range second piece aborts the call. -/
theorem enumerate_partial_output_example :
    enumerate_targets "1.2.3.1,999".data 100 = (false, ["1.2.3.1".data]) := by
  decide

/-- A failing run of the CIDR branch emits nothing: every return false in
that branch precedes the host loop, and the loop itself never fails. -/
theorem cidrBranch_fail_empty (tok : Str) (cap : Nat) :
    (cidrBranch tok cap).1 = false → (cidrBranch tok cap).2 = [] := by
  unfold cidrBranch
  dsimp only
  repeat' split
  all_goals intro h
  all_goals first | rfl | simp at h

/-- A failing run of the dash-range branch emits nothing: both range forms
validate every component before their emission loops run. -/
theorem rangeBranch_fail_empty (tok : Str) (cap : Nat) (r : Bool × List Str)
    (hr : rangeBranch tok cap = some r) : r.1 = false → r.2 = [] := by
  unfold rangeBranch at hr
  dsimp only at hr
  repeat' split at hr
  all_goals
    first
    | (subst hr; intro h; first | rfl | simp at h)
    | (injection hr with hr; subst hr; intro h; first | rfl | simp at h)
    | simp at hr

/-- A failing run of the final block emits nothing when the token lacks the
comma-list shape: outside the comma loop it only validates a bare literal. -/
theorem commaBranch_fail_empty (tok : Str) (cap : Nat)
    (hs : commaListShape tok = false) :
    (commaBranch tok cap).1 = false → (commaBranch tok cap).2 = [] := by
  unfold commaBranch
  unfold commaListShape at hs
  dsimp only
  dsimp only at hs
  split
  next hlen =>
    split
    next hcomma =>
      exfalso
      rw [decide_eq_true hlen, Bool.true_and, hcomma] at hs
      exact Bool.noConfusion hs
    · split
      · exact fun h => by simp at h
      · exact fun _ => rfl
  · split
    · exact fun h => by simp at h
    · exact fun _ => rfl

/-- C2 (amended): outside the comma-list branch a failing call of
enumerate_targets appends nothing: for every token without the
four-segments-with-comma shape and every cap, a false return comes with an
empty output; in particular the three invalid tokens the spec names each
fail with no output appended, whatever the cap.  (Inside the comma-list
branch a failure can leave partial output, as the counterexample shows.) -/
theorem invalid_tokens_fail_without_output :
    (∀ tok cap, commaListShape tok = false →
        (enumerate_targets tok cap).1 = false →
        (enumerate_targets tok cap).2 = []) ∧
    ∀ cap,
      enumerate_targets "256.1.1.1".data cap = (false, []) ∧
      enumerate_targets "192.168.1.1/33".data cap = (false, []) ∧
      enumerate_targets "192.168.1.1-400".data cap = (false, []) := by
  constructor
  · intro tok cap hs
    unfold enumerate_targets
    split
    · split
      · exact fun h => by simp at h
      · exact fun _ => rfl
    · split
      · exact cidrBranch_fail_empty tok cap
      · split
        next r hr => exact rangeBranch_fail_empty tok cap r hr
        next => exact commaBranch_fail_empty tok cap hs
  · exact fun cap => ⟨rfl, rfl, rfl⟩

/-- C2 witness: the universal clause of the theorem instantiated at the
bare token 256.1.1.1 with cap 100. -/
theorem invalid_tokens_fail_without_output_witness :
    commaListShape "256.1.1.1".data = false ∧
    (enumerate_targets "256.1.1.1".data 100).1 = false ∧
    (enumerate_targets "256.1.1.1".data 100).2 = [] :=
  ⟨by decide, by decide,
    invalid_tokens_fail_without_output.1 "256.1.1.1".data 100 (by decide)
      (by decide)⟩

/-- C3: behaviour of compress_ip_ranges on inputs exercising each clause:
the spec example with a length-3 run and a singleton, an unsorted input,
a consecutive run crossing a /24 boundary, an IPv6 entry appended after
the IPv4 runs, and the empty input marker. -/
theorem compress_examples :
    compress_ip_ranges
        ["192.168.1.1".data, "192.168.1.2".data, "192.168.1.3".data,
          "192.168.1.5".data] = "192.168.1.1-3, 192.168.1.5".data ∧
    compress_ip_ranges ["192.168.1.2".data, "192.168.1.1".data] =
      "192.168.1.1-2".data ∧
    compress_ip_ranges ["1.2.3.255".data, "1.2.4.0".data] =
      "1.2.3.255-1.2.4.0".data ∧
    compress_ip_ranges ["192.168.1.5".data, "::1".data, "192.168.1.1".data] =
      "192.168.1.1, 192.168.1.5, ::1".data ∧
    compress_ip_ranges [] = "(无)".data := by
  decide

/-- Dropping the entries compress_ip_ranges ignores leaves its result
unchanged: a keeper is either colon-shaped or parses to a nonzero value. -/
theorem partitionIps_filter (ips : List Str) :
    partitionIps (ips.filter fun s => is_ipv6_address s || ip_to_uint32 s != 0) =
      partitionIps ips := by
  induction ips with
  | nil => rfl
  | cons ip rest ih =>
    by_cases h6 : is_ipv6_address ip
    · simp [List.filter, partitionIps, h6, ih]
    · by_cases hv : ip_to_uint32 ip = 0
      · have hb : (ip_to_uint32 ip != 0) = false := by simp [hv]
        simp [List.filter, partitionIps, h6, hv, hb, ih]
      · have hb : (ip_to_uint32 ip != 0) = true := by simp [hv]
        simp [List.filter, partitionIps, h6, hv, hb, ih]

/-- C10: compress_ip_ranges silently drops entries that have no colon and
parse to the zero value, so they never influence the output, and an input
made only of such entries (for example the valid address 0.0.0.0) yields
the fixed none marker despite being nonempty. -/
theorem compress_drops_zero_entries :
    (∀ ips : List Str,
      compress_ip_ranges
          (ips.filter fun s => is_ipv6_address s || ip_to_uint32 s != 0) =
        compress_ip_ranges ips) ∧
    (∀ ips : List Str, ips ≠ [] →
      (∀ s ∈ ips, is_ipv6_address s = false ∧ ip_to_uint32 s = 0) →
      compress_ip_ranges ips = "(无)".data) := by
  have hfilter : ∀ ips : List Str,
      compress_ip_ranges
          (ips.filter fun s => is_ipv6_address s || ip_to_uint32 s != 0) =
        compress_ip_ranges ips := by
    intro ips
    by_cases hnil : ips = []
    · subst hnil; rfl
    · have hpart := partitionIps_filter ips
      by_cases hf : (ips.filter fun s => is_ipv6_address s || ip_to_uint32 s != 0) = []
      · have : partitionIps ips = ([], []) := by rw [← hpart, hf]; rfl
        simp [compress_ip_ranges, hf, hnil, this, formatRuns, sortByKey, joinComma]
      · simp [compress_ip_ranges, hnil, hf, hpart]
  refine ⟨hfilter, fun ips hne hall => ?_⟩
  have hf : (ips.filter fun s => is_ipv6_address s || ip_to_uint32 s != 0) = [] := by
    rw [List.filter_eq_nil_iff]
    intro s hs
    have := hall s hs
    simp [this.1, this.2]
  have := hfilter ips
  rw [← this, hf]
  rfl

/-- Witness for compress_drops_zero_entries at the input of one 0.0.0.0
entry. -/
theorem compress_drops_zero_entries_witness :
    compress_ip_ranges ["0.0.0.0".data] = "(无)".data :=
  compress_drops_zero_entries.2 ["0.0.0.0".data] (by decide) (by decide)

/-! Length bounds on the emission loops, toward the cap claim. -/

theorem cidrLoopF_len (fuel : Nat) :
    ∀ cur e added cap, (cidrLoopF fuel cur e added cap).length ≤ fuel := by
  induction fuel with
  | zero => intro cur e added cap; simp [cidrLoopF]
  | succ n ih =>
    intro cur e added cap
    rw [cidrLoopF]
    split
    · simpa using ih ((cur + 1) % 2 ^ 32) e (added + 1) cap
    · simp

theorem emitRangeF_spec (a b c : Nat) (fuel : Nat) :
    ∀ d d1 added cap, added ≤ cap →
      (emitRangeF a b c fuel d d1 added cap).2 =
          added + (emitRangeF a b c fuel d d1 added cap).1.length ∧
        (emitRangeF a b c fuel d d1 added cap).2 ≤ cap := by
  induction fuel with
  | zero => intro d d1 added cap h; simp [emitRangeF, h]
  | succ n ih =>
    intro d d1 added cap h
    rw [emitRangeF]
    split
    · rename_i hcond
      have := ih (d + 1) d1 (added + 1) cap (by omega)
      simpa using ⟨by omega, this.2⟩
    · simp [h]

theorem emitRange_spec (a b c d0 d1 added cap : Nat) (h : added ≤ cap) :
    (emitRange a b c d0 d1 added cap).2 =
        added + (emitRange a b c d0 d1 added cap).1.length ∧
      (emitRange a b c d0 d1 added cap).2 ≤ cap := by
  rw [emitRange]
  exact emitRangeF_spec a b c (d1 + 1 - d0) d0 d1 added cap h

theorem thirdLoopF_len (a b : Nat) (fuel : Nat) :
    ∀ c c1 added cap, added ≤ cap →
      added + (thirdLoopF a b fuel c c1 added cap).length ≤ cap := by
  induction fuel with
  | zero => intro c c1 added cap h; simp [thirdLoopF, h]
  | succ n ih =>
    intro c c1 added cap h
    rw [thirdLoopF]
    split
    · rename_i hcond
      have hr := emitRange_spec a b c 1 254 added cap h
      have hrec := ih (c + 1) c1 (emitRange a b c 1 254 added cap).2 cap hr.2
      simp only [List.length_append]
      omega
    · simp [h]

theorem commaLoop_len (a b c cap : Nat) :
    ∀ ps added, added ≤ cap →
      (commaLoop a b c cap ps added).2.2 =
          added + (commaLoop a b c cap ps added).2.1.length ∧
        (commaLoop a b c cap ps added).2.2 ≤ cap := by
  intro ps
  induction ps with
  | nil => intro added h; simp [commaLoop, h]
  | cons p rest ih =>
    intro added h
    rw [commaLoop]
    dsimp only
    split
    · exact ih added h
    · split
      · split
        · rename_i ds de hds hde
          have hem := emitRange_spec a b c (min ds de) (max ds de) added cap h
          have hrec := ih (emitRange a b c (min ds de) (max ds de) added cap).2 hem.2
          dsimp only
          simp only [List.length_append]
          omega
        · simp [h]
      · split
        · rename_i d hd
          split
          · rename_i hlt
            have hrec := ih (added + 1) (by omega)
            dsimp only
            simp only [List.length_cons]
            omega
          · exact ih added h
        · simp [h]

/-- Length bound of the CIDR branch under a positive cap. -/
theorem cidrBranch_len (tok : Str) (cap : Nat) (hcap : 1 ≤ cap) :
    (cidrBranch tok cap).2.length ≤ cap := by
  unfold cidrBranch
  dsimp only
  split
  · simp
  · split
    · simp
    · split
      · simp
      · split
        · simp [hcap]
        · simpa [cidrLoop] using le_trans (cidrLoopF_len (cap - 0) _ _ 0 cap) (by omega)

/-- Length bound of the range branch when it fires. -/
theorem rangeBranch_len (tok : Str) (cap : Nat) (r : Bool × List Str)
    (h : rangeBranch tok cap = some r) : r.2.length ≤ cap := by
  unfold rangeBranch at h
  split at h
  · dsimp only at h
    split at h
    · split at h
      · rw [Option.some_inj] at h
        subst h
        split
        · rename_i ds de hds hde
          split
          · rename_i a b c ha hb hc
            have h2 := emitRange_spec a b c (min ds de) (max ds de) 0 cap (Nat.zero_le cap)
            dsimp only
            omega
          · simp
        · simp
      · cases h
    · split at h
      · split at h
        · rw [Option.some_inj] at h
          subst h
          split
          · rename_i cs ce hcs hce
            split
            · rename_i a b ha hb
              have h2 := thirdLoopF_len a b (max cs ce + 1 - min cs ce) (min cs ce)
                (max cs ce) 0 cap (Nat.zero_le cap)
              dsimp only
              simpa [thirdLoop] using h2
            · simp
          · simp
        · cases h
      · cases h
  · cases h

/-- Length bound of the comma branch under a positive cap. -/
theorem commaBranch_len (tok : Str) (cap : Nat) (hcap : 1 ≤ cap) :
    (commaBranch tok cap).2.length ≤ cap := by
  unfold commaBranch
  dsimp only
  split
  · split
    · split
      · rename_i a b c ha hb hc
        have h2 := commaLoop_len a b c cap (split ((split tok '.').getD 3 []) ',') 0
          (Nat.zero_le cap)
        dsimp only
        omega
      · simp
    · split <;> simp [hcap]
  · split <;> simp [hcap]

/-- C4 (amended): with any positive cap, enumerate_targets emits at most
cap addresses from one token, on every branch, successful or failing. -/
theorem enumerate_respects_positive_cap (tok : Str) (cap : Nat) (hcap : 1 ≤ cap) :
    (enumerate_targets tok cap).2.length ≤ cap := by
  unfold enumerate_targets
  split
  · split <;> simp [hcap]
  · split
    · exact cidrBranch_len tok cap hcap
    · cases hrb : rangeBranch tok cap with
      | some r => dsimp only; exact rangeBranch_len tok cap r hrb
      | none => dsimp only; exact commaBranch_len tok cap hcap

/-- C4 counterexample: with cap 0 a bare IPv4 literal still emits one
address; the singleton branches of enumerate_targets never consult the
cap, so crossing it is possible there. -/
theorem enumerate_cap_zero_singleton :
    enumerate_targets "192.168.1.1".data 0 = (true, ["192.168.1.1".data]) ∧
    ¬ (enumerate_targets "192.168.1.1".data 0).2.length ≤ 0 := by
  decide

/-- Witness for enumerate_respects_positive_cap on a range token and cap
5, where the emission is truncated. -/
theorem enumerate_respects_positive_cap_witness :
    1 ≤ 5 ∧ (enumerate_targets "10.0.0.1-10".data 5).2.length ≤ 5 :=
  ⟨by decide, enumerate_respects_positive_cap "10.0.0.1-10".data 5 (by decide)⟩

/-! Helper lemmas about the string primitives, toward the symbolic range
claims. -/

theorem contains_eq_true_of_mem {l : Str} {c : Char} (h : c ∈ l) :
    l.contains c = true := by
  rw [List.contains_iff_exists_mem_beq]
  exact ⟨c, h, by simp⟩

theorem contains_eq_false {l : Str} {c : Char} (h : ∀ x ∈ l, x ≠ c) :
    l.contains c = false := by
  rw [Bool.eq_false_iff]
  intro hc
  obtain ⟨x, hx, hbeq⟩ := List.contains_iff_exists_mem_beq.mp hc
  exact h x hx (eq_of_beq hbeq).symm

theorem takeWhile_break {p : Char → Bool} {l : Str} (hl : ∀ x ∈ l, p x = true)
    {c : Char} (hc : p c = false) (r : Str) : (l ++ c :: r).takeWhile p = l := by
  induction l with
  | nil => simp [List.takeWhile_cons, hc]
  | cons y ys ih =>
    have hy := hl y (List.mem_cons_self y ys)
    simp only [List.cons_append, List.takeWhile_cons, hy, if_true]
    have := ih fun x hx => hl x (List.mem_cons_of_mem y hx)
    simp [this]

theorem drop_break {l r : Str} {c : Char} : (l ++ c :: r).drop (l.length + 1) = r := by
  have : l ++ c :: r = (l ++ [c]) ++ r := by simp
  rw [this, List.drop_left' (by simp)]

theorem cutAt_append {d : Char} {l : Str} (h : ∀ x ∈ l, x ≠ d) (r : Str) :
    cutAt d (l ++ d :: r) = (l, r) := by
  rw [cutAt]
  have h1 : (l ++ d :: r).takeWhile (· ≠ d) = l :=
    takeWhile_break (fun x hx => by simpa using h x hx) (by simp) r
  simp only [h1]
  exact congrArg _ drop_break

theorem splitGo_append {d : Char} {l : Str} (h : d ∉ l) (acc r : Str) :
    splitGo d acc (l ++ d :: r) = (acc ++ l) :: splitGo d [] r := by
  induction l generalizing acc with
  | nil => simp [splitGo]
  | cons c cs ih =>
    have hc : c ≠ d := fun hcd => h (hcd ▸ List.mem_cons_self c cs)
    have hcs : d ∉ cs := fun hm => h (List.mem_cons_of_mem c hm)
    simp only [List.cons_append, List.append_eq, splitGo, hc, if_false]
    rw [ih hcs]
    simp

theorem splitGo_last {d : Char} {l : Str} (h : d ∉ l) (acc : Str)
    (hne : acc ++ l ≠ []) : splitGo d acc l = [acc ++ l] := by
  induction l generalizing acc with
  | nil =>
    simp only [List.append_nil] at hne ⊢
    simp [splitGo, hne]
  | cons c cs ih =>
    have hc : c ≠ d := fun hcd => h (hcd ▸ List.mem_cons_self c cs)
    have hcs : d ∉ cs := fun hm => h (List.mem_cons_of_mem c hm)
    simp only [splitGo, hc, if_false]
    rw [ih hcs (acc ++ [c]) (by simp)]
    simp

theorem split_three {d : Char} {l1 l2 l3 : Str} (h1 : d ∉ l1) (h2 : d ∉ l2)
    (h3 : d ∉ l3) (hne : l3 ≠ []) :
    split (l1 ++ d :: (l2 ++ d :: l3)) d = [l1, l2, l3] := by
  rw [split, splitGo_append h1, splitGo_append h2, splitGo_last h3 [] (by simpa)]
  simp

set_option maxRecDepth 100000 in
theorem parse_int_pack :
    ((List.range 256).all fun n => parse_int (octStr n) == some (n : Int)) = true := by
  decide

theorem parse_int_octStr {n : Nat} (h : n < 256) :
    parse_int (octStr n) = some (n : Int) :=
  eq_of_beq (List.all_eq_true.mp parse_int_pack n (List.mem_range.mpr h))

theorem parse_octet_octStr {n : Nat} (h : n ≤ 255) : parse_octet (octStr n) = some n := by
  rw [parse_octet, parse_int_octStr (by omega)]
  have : (0 : Int) ≤ (n : Int) ∧ (n : Int) ≤ 255 := by omega
  simp [this]

/-! Exact evaluation of the emission loops when the cap is large enough. -/

theorem emitRangeF_map (a b c d1 : Nat) (cnt : Nat) :
    ∀ d0 added cap, d0 + cnt = d1 + 1 → added + cnt ≤ cap →
      emitRangeF a b c cnt d0 d1 added cap =
        ((List.range' d0 cnt).map (quadStr a b c), added + cnt) := by
  induction cnt with
  | zero => intro d0 added cap hc hcap; simp [emitRangeF]
  | succ n ih =>
    intro d0 added cap hc hcap
    rw [emitRangeF, if_pos ⟨by omega, by omega⟩]
    rw [ih (d0 + 1) (added + 1) cap (by omega) (by omega)]
    rw [List.range'_succ, List.map_cons]
    simp
    omega

theorem emitRange_eval (a b c d0 d1 added cap : Nat) (hle : d0 ≤ d1 + 1)
    (hcap : added + (d1 + 1 - d0) ≤ cap) :
    emitRange a b c d0 d1 added cap =
      ((List.range' d0 (d1 + 1 - d0)).map (quadStr a b c),
        added + (d1 + 1 - d0)) := by
  rw [emitRange]
  exact emitRangeF_map a b c d1 (d1 + 1 - d0) d0 added cap (by omega) hcap

theorem thirdLoopF_map (a b c1 : Nat) (cnt : Nat) :
    ∀ c0 added cap, c0 + cnt = c1 + 1 → added + cnt * 254 ≤ cap →
      thirdLoopF a b cnt c0 c1 added cap =
        (List.range' c0 cnt).flatMap fun c =>
          (List.range' 1 254).map (quadStr a b c) := by
  induction cnt with
  | zero => intro c0 added cap hc hcap; simp [thirdLoopF]
  | succ n ih =>
    intro c0 added cap hc hcap
    rw [thirdLoopF, if_pos ⟨by omega, by omega⟩]
    rw [emitRange_eval a b c0 1 254 added cap (by omega) (by omega)]
    dsimp only
    rw [ih (c0 + 1) (added + (254 + 1 - 1)) cap (by omega) (by omega)]
    have hsplit : List.range' c0 (n + 1) = c0 :: List.range' (c0 + 1) n :=
      List.range'_succ _ _ _
    rw [hsplit, List.flatMap_cons]

theorem thirdLoop_eval (a b c0 c1 cap : Nat) (hle : c0 ≤ c1 + 1)
    (hcap : (c1 + 1 - c0) * 254 ≤ cap) :
    thirdLoop a b c0 c1 0 cap =
      (List.range' c0 (c1 + 1 - c0)).flatMap fun c =>
        (List.range' 1 254).map (quadStr a b c) := by
  rw [thirdLoop]
  exact thirdLoopF_map a b c1 (c1 + 1 - c0) c0 0 cap (by omega) (by simpa using hcap)

theorem mem_octStr_digit {n : Nat} (h : n < 256) {x : Char} (hx : x ∈ octStr n) :
    x.isDigit = true :=
  List.all_eq_true.mp (octet_digits h) x hx

theorem ne_of_digit {x c : Char} (hx : x.isDigit = true) (hc : c.isDigit = false) :
    x ≠ c := by
  intro h
  subst h
  rw [hc] at hx
  cases hx

/-- C7 (amended): a three-segment range token a.b.c1-c2 with octets in
[0,255] and a cap of at least (max - min + 1) * 254 enumerates, for every
third octet from min(c1,c2) to max(c1,c2) in ascending order, the fourth
octets 1..254 in ascending order. -/
theorem third_segment_range_enumeration (a b c1 c2 cap : Nat)
    (ha : a ≤ 255) (hb : b ≤ 255) (h1 : c1 ≤ 255) (h2 : c2 ≤ 255)
    (hcap : (max c1 c2 + 1 - min c1 c2) * 254 ≤ cap) :
    enumerate_targets
        (octStr a ++ ('.' :: (octStr b ++ ('.' :: (octStr c1 ++ ('-' :: octStr c2)))))) cap =
      (true, (List.range' (min c1 c2) (max c1 c2 + 1 - min c1 c2)).flatMap fun c =>
        (List.range' 1 254).map (quadStr a b c)) := by
  have ha' : a < 256 := by omega
  have hb' : b < 256 := by omega
  have h1' : c1 < 256 := by omega
  have h2' : c2 < 256 := by omega
  set seg : Str := octStr c1 ++ ('-' :: octStr c2) with hseg
  set tok : Str := octStr a ++ ('.' :: (octStr b ++ ('.' :: seg))) with htok
  have hsegmem : ∀ x ∈ seg, x.isDigit = true ∨ x = '-' := by
    intro x hx
    rw [hseg] at hx
    rcases List.mem_append.mp hx with hx | hx
    · exact Or.inl (mem_octStr_digit h1' hx)
    · rcases List.mem_cons.mp hx with hx | hx
      · exact Or.inr hx
      · exact Or.inl (mem_octStr_digit h2' hx)
  have htokmem : ∀ x ∈ tok, x.isDigit = true ∨ x = '.' ∨ x = '-' := by
    intro x hx
    rw [htok] at hx
    rcases List.mem_append.mp hx with hx | hx
    · exact Or.inl (mem_octStr_digit ha' hx)
    · rcases List.mem_cons.mp hx with hx | hx
      · exact Or.inr (Or.inl hx)
      · rcases List.mem_append.mp hx with hx | hx
        · exact Or.inl (mem_octStr_digit hb' hx)
        · rcases List.mem_cons.mp hx with hx | hx
          · exact Or.inr (Or.inl hx)
          · rcases hsegmem x hx with hx | hx
            · exact Or.inl hx
            · exact Or.inr (Or.inr hx)
  have hnotc : ∀ c : Char, c.isDigit = false → c ≠ '.' → c ≠ '-' →
      tok.contains c = false := by
    intro c hcd hcdot hcdash
    refine contains_eq_false fun x hx => ?_
    rcases htokmem x hx with hx | hx | hx
    · exact ne_of_digit hx hcd
    · exact fun he => hcdot (by rw [← he]; exact hx)
    · exact fun he => hcdash (by rw [← he]; exact hx)
  have h6 : is_ipv6_address tok = false := hnotc ':' (by decide) (by decide) (by decide)
  have hslash : tok.contains '/' = false := hnotc '/' (by decide) (by decide) (by decide)
  have hcomma : tok.contains ',' = false := hnotc ',' (by decide) (by decide) (by decide)
  have hdash : tok.contains '-' = true := by
    refine contains_eq_true_of_mem ?_
    rw [htok, hseg]
    simp
  have hsplit : split tok '.' = [octStr a, octStr b, seg] := by
    rw [htok]
    refine split_three (octet_not_mem ha' (by decide)) (octet_not_mem hb' (by decide))
      ?_ (by rw [hseg]; simp)
    intro hx
    rcases hsegmem '.' hx with hx | hx
    · cases hx
    · cases hx
  have hsegdash : seg.contains '-' = true := by
    refine contains_eq_true_of_mem ?_
    rw [hseg]
    simp
  have hcut : cutAt '-' seg = (octStr c1, octStr c2) := by
    rw [hseg]
    exact cutAt_append (fun x hx => ne_of_digit (mem_octStr_digit h1' hx) (by decide)) _
  have hrange : rangeBranch tok cap =
      some (true, thirdLoop a b (min c1 c2) (max c1 c2) 0 cap) := by
    rw [rangeBranch]
    rw [if_pos ⟨hdash, by rw [hcomma]; exact Bool.false_ne_true⟩]
    simp only [hsplit]
    rw [if_neg (show ([octStr a, octStr b, seg] : List Str).length ≠ 4 by simp)]
    rw [if_pos (show ([octStr a, octStr b, seg] : List Str).length = 3 by simp)]
    simp only [List.getD_cons_succ, List.getD_cons_zero]
    rw [if_pos hsegdash]
    simp only [hcut]
    rw [parse_octet_octStr h1, parse_octet_octStr h2,
        parse_octet_octStr ha, parse_octet_octStr hb]
  rw [enumerate_targets]
  rw [if_neg (by rw [h6]; exact Bool.false_ne_true)]
  rw [if_neg (by rw [hslash]; exact Bool.false_ne_true)]
  rw [hrange]
  exact congrArg _ (thirdLoop_eval a b (min c1 c2) (max c1 c2) cap (by omega) hcap)

/-- C7 counterexample: in the token 10.0.2-1 the third-segment bounds are
c1 = 2 and c2 = 1, so the claim interval [c1,c2] is empty and the claim
predicts no output; the code swaps the bounds and emits the 508 addresses
10.0.1.1 .. 10.0.2.254 instead. -/
theorem third_range_swapped_example :
    (enumerate_targets "10.0.2-1".data 1000).1 = true ∧
    (enumerate_targets "10.0.2-1".data 1000).2.length = 508 ∧
    (enumerate_targets "10.0.2-1".data 1000).2.head? = some "10.0.1.1".data := by
  decide

/-- Witness for third_segment_range_enumeration at the spec example token
10.0.1-2 with cap 1000. -/
theorem third_segment_range_enumeration_witness :
    10 ≤ 255 ∧ (max 1 2 + 1 - min 1 2) * 254 ≤ 1000 ∧
    enumerate_targets
        (octStr 10 ++ ('.' :: (octStr 0 ++ ('.' :: (octStr 1 ++ ('-' :: octStr 2)))))) 1000 =
      (true, (List.range' (min 1 2) (max 1 2 + 1 - min 1 2)).flatMap fun c =>
        (List.range' 1 254).map (quadStr 10 0 c)) :=
  ⟨by decide, by decide,
    third_segment_range_enumeration 10 0 1 2 1000 (by decide) (by decide) (by decide)
      (by decide) (by decide)⟩

/-! Bit-level facts about the CIDR mask arithmetic. -/

theorem two_pow_mul_sub (k : Nat) (hk : k ≤ 32) :
    2 ^ 32 - 2 ^ k = 2 ^ k * (2 ^ (32 - k) - 1) := by
  have h2 : 2 ^ k * 2 ^ (32 - k) = 2 ^ 32 := by
    rw [← pow_add]
    congr 1
    omega
  rw [Nat.mul_sub_one, h2]

theorem cidrMask_eq {p : Nat} (hp : p ≤ 32) : cidrMask p = 2 ^ 32 - 2 ^ (32 - p) := by
  rw [cidrMask]
  by_cases h0 : p = 0
  · subst h0; simp
  · rw [if_neg h0, Nat.shiftLeft_eq]
    have h1 : 1 ≤ 2 ^ (32 - p) := Nat.one_le_two_pow
    have h2 : 2 ^ (32 - p) ≤ 2 ^ 32 := Nat.pow_le_pow_right (by norm_num) (by omega)
    omega

theorem land_high_mask {ip : Nat} (k : Nat) (hip : ip < 2 ^ 32) (hk : k ≤ 32) :
    ip &&& (2 ^ 32 - 2 ^ k) = 2 ^ k * (ip >>> k) := by
  apply Nat.eq_of_testBit_eq
  intro i
  rw [Nat.testBit_and, two_pow_mul_sub k hk, Nat.testBit_mul_pow_two,
      Nat.testBit_mul_pow_two, Nat.testBit_two_pow_sub_one, Nat.testBit_shiftRight]
  rcases Nat.lt_or_ge i k with hik | hik
  · simp [Nat.not_le_of_lt hik]
  · rcases Nat.lt_or_ge i 32 with hi32 | hi32
    · have hkk : k + (i - k) = i := by omega
      simp [hik, hkk, (by omega : i - k < 32 - k)]
    · have hbi : ip.testBit i = false :=
        Nat.testBit_lt_two_pow (lt_of_lt_of_le hip (Nat.pow_le_pow_right (by norm_num) hi32))
      have hbik : ip.testBit (k + (i - k)) = false := by
        have : k + (i - k) = i := by omega
        rw [this, hbi]
      simp [hbi, hbik, (by omega : ¬ (i - k < 32 - k))]

/-- Exact evaluation of the CIDR loop when the end stays below the 32-bit
wrap and the cap is large enough. -/
theorem cidrLoopF_map (e : Nat) (he : e < 2 ^ 32 - 1) (cnt : Nat) :
    ∀ fuel cur added cap, cur + cnt = e + 1 → cnt ≤ fuel → added + cnt ≤ cap →
      cidrLoopF fuel cur e added cap = (List.range' cur cnt).map ip_to_string := by
  induction cnt with
  | zero =>
    intro fuel cur added cap hc hf hcap
    match fuel with
    | 0 => rfl
    | m + 1 =>
      rw [cidrLoopF, if_neg]
      · rfl
      · rintro ⟨h1, h2⟩
        omega
  | succ n ih =>
    intro fuel cur added cap hc hf hcap
    match fuel with
    | 0 => omega
    | m + 1 =>
      rw [cidrLoopF, if_pos ⟨by omega, by omega⟩]
      have hmod : (cur + 1) % 2 ^ 32 = cur + 1 := Nat.mod_eq_of_lt (by omega)
      rw [hmod, ih m (cur + 1) (added + 1) cap (by omega) (by omega) (by omega)]
      have hsplit : List.range' cur (n + 1) = cur :: List.range' (cur + 1) n :=
        List.range'_succ _ _ _
      rw [hsplit, List.map_cons]

theorem mem_ip_to_string {v : Nat} {x : Char} (hx : x ∈ ip_to_string v) :
    x.isDigit = true ∨ x = '.' := by
  have h24 : (v >>> 24) % 256 < 256 := Nat.mod_lt _ (by norm_num)
  have h16 : (v >>> 16) % 256 < 256 := Nat.mod_lt _ (by norm_num)
  have h8 : (v >>> 8) % 256 < 256 := Nat.mod_lt _ (by norm_num)
  have h0 : v % 256 < 256 := Nat.mod_lt _ (by norm_num)
  rw [ip_to_string] at hx
  rcases List.mem_append.mp hx with hx | hx
  · exact Or.inl (mem_octStr_digit h24 hx)
  · rcases List.mem_cons.mp hx with hx | hx
    · exact Or.inr hx
    · rcases List.mem_append.mp hx with hx | hx
      · exact Or.inl (mem_octStr_digit h16 hx)
      · rcases List.mem_cons.mp hx with hx | hx
        · exact Or.inr hx
        · rcases List.mem_append.mp hx with hx | hx
          · exact Or.inl (mem_octStr_digit h8 hx)
          · rcases List.mem_cons.mp hx with hx | hx
            · exact Or.inr hx
            · exact Or.inl (mem_octStr_digit h0 hx)

/-- C1: a CIDR token with a prefix below 31 and a cap of at least
2^(32-prefix) - 2 enumerates successfully with exactly 2^(32-prefix) - 2
addresses, in strictly ascending numeric order, none of them equal to the
network address ip AND mask or the broadcast address network OR NOT mask. -/
theorem cidr_enumerates_host_range (ip p cap : Nat) (hip : ip < 2 ^ 32) (hp : p < 31)
    (hcap : 2 ^ (32 - p) - 2 ≤ cap) :
    (enumerate_targets (ip_to_string ip ++ ('/' :: octStr p)) cap).1 = true ∧
    (enumerate_targets (ip_to_string ip ++ ('/' :: octStr p)) cap).2.length =
      2 ^ (32 - p) - 2 ∧
    List.Chain' (fun s t => ip_to_uint32 s < ip_to_uint32 t)
      (enumerate_targets (ip_to_string ip ++ ('/' :: octStr p)) cap).2 ∧
    ∀ s ∈ (enumerate_targets (ip_to_string ip ++ ('/' :: octStr p)) cap).2,
      ip_to_uint32 s ≠ ip &&& cidrMask p ∧
      ip_to_uint32 s ≠ (ip &&& cidrMask p) ||| compl32 (cidrMask p) := by
  have hp256 : p < 256 := by omega
  set tok : Str := ip_to_string ip ++ ('/' :: octStr p) with htok
  have htokmem : ∀ x ∈ tok, x.isDigit = true ∨ x = '.' ∨ x = '/' := by
    intro x hx
    rw [htok] at hx
    rcases List.mem_append.mp hx with hx | hx
    · rcases mem_ip_to_string hx with hx | hx
      · exact Or.inl hx
      · exact Or.inr (Or.inl hx)
    · rcases List.mem_cons.mp hx with hx | hx
      · exact Or.inr (Or.inr hx)
      · exact Or.inl (mem_octStr_digit hp256 hx)
  have h6 : is_ipv6_address tok = false := by
    refine contains_eq_false fun x hx => ?_
    rcases htokmem x hx with hx | hx | hx
    · exact ne_of_digit hx (by decide)
    · exact fun he => by rw [he] at hx; cases hx
    · exact fun he => by rw [he] at hx; cases hx
  have hslash : tok.contains '/' = true := by
    refine contains_eq_true_of_mem ?_
    rw [htok]
    simp
  have hcut : cutAt '/' tok = (ip_to_string ip, octStr p) := by
    rw [htok]
    refine cutAt_append (fun x hx => ?_) _
    rcases mem_ip_to_string hx with hx | hx
    · exact ne_of_digit hx (by decide)
    · exact fun he => by rw [he] at hx; cases hx
  -- arithmetic facts about the mask, network and broadcast
  have hK1 : 1 ≤ 2 ^ (32 - p) := Nat.one_le_two_pow
  have hK4 : 4 ≤ 2 ^ (32 - p) := by
    calc (4 : Nat) = 2 ^ 2 := by norm_num
    _ ≤ 2 ^ (32 - p) := Nat.pow_le_pow_right (by norm_num) (by omega)
  have hKle : 2 ^ (32 - p) ≤ 2 ^ 32 := Nat.pow_le_pow_right (by norm_num) (by omega)
  have hmask : cidrMask p = 2 ^ 32 - 2 ^ (32 - p) := cidrMask_eq (by omega)
  have hnet : ip &&& cidrMask p = 2 ^ (32 - p) * (ip >>> (32 - p)) := by
    rw [hmask]
    exact land_high_mask (32 - p) hip (by omega)
  have hqlt : ip >>> (32 - p) < 2 ^ p := by
    rw [Nat.shiftRight_eq_div_pow]
    apply Nat.div_lt_of_lt_mul
    have e1 : 2 ^ (32 - p) * 2 ^ p = 2 ^ 32 := by rw [← pow_add]; congr 1; omega
    have e2 : 2 ^ p * 2 ^ (32 - p) = 2 ^ 32 := by rw [← pow_add]; congr 1; omega
    omega
  have hnetle : ip &&& cidrMask p ≤ 2 ^ 32 - 2 ^ (32 - p) := by
    rw [hnet]
    calc 2 ^ (32 - p) * (ip >>> (32 - p)) ≤ 2 ^ (32 - p) * (2 ^ p - 1) :=
      Nat.mul_le_mul_left _ (by omega)
    _ = 2 ^ (32 - p) * 2 ^ p - 2 ^ (32 - p) := Nat.mul_sub_one _ _
    _ = 2 ^ 32 - 2 ^ (32 - p) := by rw [← pow_add]; congr 2; omega
  have hcompl : compl32 (cidrMask p) = 2 ^ (32 - p) - 1 := by
    rw [hmask, compl32]
    omega
  have hbro : (ip &&& cidrMask p) ||| compl32 (cidrMask p) =
      (ip &&& cidrMask p) + (2 ^ (32 - p) - 1) := by
    rw [hcompl, hnet]
    exact (Nat.mul_add_lt_is_or (by omega) _).symm
  set network : Nat := ip &&& cidrMask p with hnetdef
  -- the enumeration result
  have henum : enumerate_targets tok cap =
      (true, (List.range' (network + 1) (2 ^ (32 - p) - 2)).map ip_to_string) := by
    rw [enumerate_targets]
    rw [if_neg (by rw [h6]; exact Bool.false_ne_true)]
    rw [if_pos hslash]
    rw [cidrBranch]
    simp only [hcut]
    rw [parse_int_octStr hp256]
    dsimp only
    have hple : ¬ ((p : Int) < 0 ∨ 32 < (p : Int)) := by
      rintro (h | h) <;> omega
    rw [if_neg hple]
    rw [pton4_ip_to_string hip]
    dsimp only
    simp only [Int.toNat_natCast]
    rw [if_neg (by omega : ¬ p = 32)]
    rw [if_neg (by omega : ¬ 31 ≤ p)]
    dsimp only
    rw [hbro, cidrLoop]
    rw [cidrLoopF_map (network + (2 ^ (32 - p) - 1) - 1) (by omega)
      (2 ^ (32 - p) - 2) (cap - 0) (network + 1) 0 cap (by omega) (by omega) (by omega)]
  have hmem_val : ∀ v ∈ List.range' (network + 1) (2 ^ (32 - p) - 2),
      network + 1 ≤ v ∧ v < network + (2 ^ (32 - p) - 1) := by
    intro v hv
    have := List.mem_range'_1.mp hv
    omega
  have hval32 : ∀ v ∈ List.range' (network + 1) (2 ^ (32 - p) - 2), v < 2 ^ 32 := by
    intro v hv
    have := hmem_val v hv
    omega
  refine ⟨by rw [henum], by rw [henum]; simp, ?_, ?_⟩
  · rw [henum]
    dsimp only
    rw [List.chain'_map]
    have hpw : (List.range' (network + 1) (2 ^ (32 - p) - 2)).Pairwise (· < ·) := by
      simpa using List.pairwise_lt_range' _ _ 1 (by omega)
    refine List.Pairwise.chain' (hpw.imp_of_mem ?_)
    intro a b hma hmb hlt
    rw [ip_roundtrip a (hval32 a hma), ip_roundtrip b (hval32 b hmb)]
    exact hlt
  · intro s hs
    rw [henum] at hs
    dsimp only at hs
    obtain ⟨v, hv, rfl⟩ := List.mem_map.mp hs
    rw [ip_roundtrip v (hval32 v hv)]
    have := hmem_val v hv
    rw [hbro]
    omega

/-- Witness for cidr_enumerates_host_range at 192.168.1.0/30 with cap 2:
the two usable hosts of a /30. -/
theorem cidr_enumerates_host_range_witness :
    3232235776 < 2 ^ 32 ∧ 30 < 31 ∧ 2 ^ (32 - 30) - 2 ≤ 2 ∧
    (enumerate_targets (ip_to_string 3232235776 ++ ('/' :: octStr 30)) 2).1 = true ∧
    (enumerate_targets (ip_to_string 3232235776 ++ ('/' :: octStr 30)) 2).2.length =
      2 ^ (32 - 30) - 2 :=
  ⟨by norm_num, by norm_num, by norm_num,
    (cidr_enumerates_host_range 3232235776 30 2 (by norm_num) (by norm_num)
      (by norm_num)).1,
    (cidr_enumerates_host_range 3232235776 30 2 (by norm_num) (by norm_num)
      (by norm_num)).2.1⟩

/-! Embedding of the worker loop of main.cpp as a small-step system over
shared atomic counters.  One loop iteration is split at the shared-memory
accesses: top (stop-flag check and round-robin fetch_add), gate (sent
fetch_add and bound check in bounded mode, plain fetch_add otherwise),
revert (sent fetch_sub of an over-budget draw), retryCheck (the all-done
scan, then stop or retry), probe (the external ping; its outcome comes
from an oracle indexed by a global probe counter), output (received
fetch_add on success; the printing that follows touches no counter),
postCheck (the all-done scan of bounded mode, then stop or sleep).  A
schedule says which worker moves at each step, so every interleaving of
the W threads is representable. -/

inductive WorkerPc
  | top | gate | revert | retryCheck | probe | output | postCheck | exited
deriving DecidableEq

/-- Thread-local state of one worker: its program point, the drawn target
index, and the success flag of its latest probe. -/
structure Worker where
  pc : WorkerPc
  idx : Nat
  success : Bool
deriving DecidableEq

/-- Shared state of the scheduler: the round-robin counter, the per-target
sent and received counters, the stop flag, the number of probes fired so
far (feeding the outcome oracle) and the worker pool. -/
structure SchedConfig where
  rr : Nat
  sent : List Nat
  received : List Nat
  stop : Bool
  probeCount : Nat
  workers : List Worker
deriving DecidableEq

/-- The all-done scan of the source: no target with sent below the bound. -/
def allDone (K : Nat) (sent : List Nat) : Bool := sent.all fun s => !(s < K)

/-- One atomic step of worker wi; an out-of-range index moves nothing. -/
def schedStep (K N : Nat) (oracle : Nat → Bool) (cfg : SchedConfig) (wi : Nat) :
    SchedConfig :=
  let w := cfg.workers.getD wi ⟨.exited, 0, false⟩
  match w.pc with
  | .top =>
    if cfg.stop then
      { cfg with workers := cfg.workers.set wi { w with pc := .exited } }
    else
      { cfg with rr := cfg.rr + 1,
                 workers := cfg.workers.set wi { w with pc := .gate, idx := cfg.rr % N } }
  | .gate =>
    let prev := cfg.sent.getD w.idx 0
    if 0 < K ∧ K ≤ prev then
      { cfg with sent := cfg.sent.set w.idx (prev + 1),
                 workers := cfg.workers.set wi { w with pc := .revert } }
    else
      { cfg with sent := cfg.sent.set w.idx (prev + 1),
                 workers := cfg.workers.set wi { w with pc := .probe } }
  | .revert =>
    { cfg with sent := cfg.sent.set w.idx (cfg.sent.getD w.idx 0 - 1),
               workers := cfg.workers.set wi { w with pc := .retryCheck } }
  | .retryCheck =>
    if allDone K cfg.sent then
      { cfg with stop := true, workers := cfg.workers.set wi { w with pc := .exited } }
    else
      { cfg with workers := cfg.workers.set wi { w with pc := .top } }
  | .probe =>
    { cfg with probeCount := cfg.probeCount + 1,
               workers := cfg.workers.set wi
                 { w with pc := .output, success := oracle cfg.probeCount } }
  | .output =>
    { cfg with received :=
        if w.success then cfg.received.set w.idx (cfg.received.getD w.idx 0 + 1)
        else cfg.received,
               workers := cfg.workers.set wi { w with pc := .postCheck } }
  | .postCheck =>
    if 0 < K ∧ allDone K cfg.sent then
      { cfg with stop := true, workers := cfg.workers.set wi { w with pc := .exited } }
    else
      { cfg with workers := cfg.workers.set wi { w with pc := .top } }
  | .exited => cfg

/-- Run of a whole schedule, one worker index per step. -/
def runSched (K N : Nat) (oracle : Nat → Bool) : List Nat → SchedConfig → SchedConfig
  | [], cfg => cfg
  | wi :: rest, cfg => runSched K N oracle rest (schedStep K N oracle cfg wi)

/-- Initial configuration of main.cpp: counters zero, stop clear, W workers
about to enter the loop. -/
def initConfig (N W : Nat) : SchedConfig :=
  ⟨0, List.replicate N 0, List.replicate N 0, false, 0,
    List.replicate W ⟨.top, 0, false⟩⟩

/-- A worker holds a pending contribution to target i when it sits between
its sent increment and the point where that draw can no longer produce a
received increment: the revert step, or the probe and output steps. -/
def inWindow (i : Nat) (w : Worker) : Bool :=
  match w.pc with
  | .revert | .probe | .output => w.idx == i
  | _ => false

/-- Invariant of the scheduler: counter lists have length N, drawn indices
are in range, and each received counter plus the pending contributions of
the workers stays below the sent counter. -/
structure SchedInv (N : Nat) (cfg : SchedConfig) : Prop where
  sent_len : cfg.sent.length = N
  recv_len : cfg.received.length = N
  idx_lt : ∀ w ∈ cfg.workers, w.idx < N
  bound : ∀ i, cfg.received.getD i 0 + cfg.workers.countP (inWindow i) ≤
    cfg.sent.getD i 0

theorem getD_set_self {l : List Nat} {k v : Nat} (hk : k < l.length) :
    (l.set k v).getD k 0 = v := by
  simp [List.getD_eq_getElem?_getD, List.getElem?_set_self hk]

theorem getD_set_ne {l : List Nat} {k j v : Nat} (h : k ≠ j) :
    (l.set k v).getD j 0 = l.getD j 0 := by
  simp [List.getD_eq_getElem?_getD, List.getElem?_set_ne h]

theorem countP_set {α : Type} (p : α → Bool) :
    ∀ (l : List α) (k : Nat) (x d : α), k < l.length →
      (l.set k x).countP p + (if p (l.getD k d) then 1 else 0) =
        l.countP p + (if p x then 1 else 0) := by
  intro l
  induction l with
  | nil => intro k x d hk; simp at hk
  | cons a as ih =>
    intro k x d hk
    cases k with
    | zero => simp [List.countP_cons]; omega
    | succ n =>
      simp only [List.set_cons_succ, List.countP_cons, List.getD_cons_succ]
      have := ih n x d (by simpa using hk)
      omega

theorem schedStep_inv {K N : Nat} {oracle : Nat → Bool} {cfg : SchedConfig} {wi : Nat}
    (hN : 0 < N) (h : SchedInv N cfg) : SchedInv N (schedStep K N oracle cfg wi) := by
  by_cases hwi : wi < cfg.workers.length
  case neg =>
    have hnone : cfg.workers[wi]? = none := List.getElem?_eq_none (Nat.le_of_not_lt hwi)
    rw [schedStep]
    rw [show cfg.workers.getD wi ⟨.exited, 0, false⟩ = ⟨.exited, 0, false⟩ by
      rw [List.getD_eq_getElem?_getD, hnone]; rfl]
    exact h
  case pos =>
    set w := cfg.workers.getD wi ⟨.exited, 0, false⟩ with hw
    have hwmem : w ∈ cfg.workers := by
      rw [hw, List.getD_eq_getElem?_getD, List.getElem?_eq_getElem hwi]
      exact List.getElem_mem hwi
    have hwidx : w.idx < N := h.idx_lt w hwmem
    have hcount : ∀ (i : Nat) (x : Worker),
        (cfg.workers.set wi x).countP (inWindow i) + (if inWindow i w then 1 else 0) =
          cfg.workers.countP (inWindow i) + (if inWindow i x then 1 else 0) := by
      intro i x
      have := countP_set (inWindow i) cfg.workers wi x ⟨.exited, 0, false⟩ hwi
      rw [← hw] at this
      exact this
    have hidx_set : ∀ (x : Worker), x.idx < N → ∀ w2 ∈ cfg.workers.set wi x, w2.idx < N := by
      intro x hx w2 hm
      rcases List.mem_or_eq_of_mem_set hm with hm | rfl
      · exact h.idx_lt w2 hm
      · exact hx
    have hslen : w.idx < cfg.sent.length := by rw [h.sent_len]; exact hwidx
    have hrlen : w.idx < cfg.received.length := by rw [h.recv_len]; exact hwidx
    rw [schedStep, ← hw]
    rcases hpc : w.pc with _ | _ | _ | _ | _ | _ | _ | _ <;> dsimp only
    -- top
    · split
      · refine ⟨h.sent_len, h.recv_len, hidx_set _ hwidx, fun i => ?_⟩
        dsimp only
        have hc := hcount i { w with pc := .exited }
        have hb := h.bound i
        simp [inWindow, hpc] at hc
        omega
      · refine ⟨h.sent_len, h.recv_len, hidx_set _ (Nat.mod_lt _ hN), fun i => ?_⟩
        dsimp only
        have hc := hcount i { w with pc := .gate, idx := cfg.rr % N }
        have hb := h.bound i
        simp [inWindow, hpc] at hc
        omega
    -- admit
    · split
      · refine ⟨by simp [h.sent_len], h.recv_len, hidx_set _ hwidx, fun i => ?_⟩
        dsimp only
        have hc := hcount i { w with pc := .revert }
        have hb := h.bound i
        by_cases hi : w.idx = i
        · subst hi
          rw [getD_set_self hslen]
          simp [inWindow, hpc] at hc
          omega
        · rw [getD_set_ne hi]
          simp [inWindow, hpc, hi] at hc
          omega
      · refine ⟨by simp [h.sent_len], h.recv_len, hidx_set _ hwidx, fun i => ?_⟩
        dsimp only
        have hc := hcount i { w with pc := .probe }
        have hb := h.bound i
        by_cases hi : w.idx = i
        · subst hi
          rw [getD_set_self hslen]
          simp [inWindow, hpc] at hc
          omega
        · rw [getD_set_ne hi]
          simp [inWindow, hpc, hi] at hc
          omega
    -- revert
    · refine ⟨by simp [h.sent_len], h.recv_len, hidx_set _ hwidx, fun i => ?_⟩
      dsimp only
      have hc := hcount i { w with pc := .retryCheck }
      have hb := h.bound i
      by_cases hi : w.idx = i
      · subst hi
        rw [getD_set_self hslen]
        simp [inWindow, hpc] at hc
        omega
      · rw [getD_set_ne hi]
        simp [inWindow, hpc, hi] at hc
        omega
    -- retryCheck
    · split
      · refine ⟨h.sent_len, h.recv_len, hidx_set _ hwidx, fun i => ?_⟩
        dsimp only
        have hc := hcount i { w with pc := .exited }
        have hb := h.bound i
        simp [inWindow, hpc] at hc
        omega
      · refine ⟨h.sent_len, h.recv_len, hidx_set _ hwidx, fun i => ?_⟩
        dsimp only
        have hc := hcount i { w with pc := .top }
        have hb := h.bound i
        simp [inWindow, hpc] at hc
        omega
    -- probe
    · refine ⟨h.sent_len, h.recv_len, hidx_set _ hwidx, fun i => ?_⟩
      dsimp only
      have hc := hcount i { w with pc := .output, success := oracle cfg.probeCount }
      have hb := h.bound i
      by_cases hi : w.idx = i
      · subst hi
        simp [inWindow, hpc] at hc
        omega
      · simp [inWindow, hpc, hi] at hc
        omega
    -- output
    · refine ⟨h.sent_len, by split <;> simp [h.recv_len], hidx_set _ hwidx, fun i => ?_⟩
      dsimp only
      have hc := hcount i { w with pc := .postCheck }
      have hb := h.bound i
      by_cases hi : w.idx = i
      · subst hi
        split
        · rw [getD_set_self hrlen]
          simp [inWindow, hpc] at hc
          omega
        · simp [inWindow, hpc] at hc
          omega
      · split
        · rw [getD_set_ne hi]
          simp [inWindow, hpc, hi] at hc
          omega
        · simp [inWindow, hpc, hi] at hc
          omega
    -- postCheck
    · split
      · refine ⟨h.sent_len, h.recv_len, hidx_set _ hwidx, fun i => ?_⟩
        dsimp only
        have hc := hcount i { w with pc := .exited }
        have hb := h.bound i
        simp [inWindow, hpc] at hc
        omega
      · refine ⟨h.sent_len, h.recv_len, hidx_set _ hwidx, fun i => ?_⟩
        dsimp only
        have hc := hcount i { w with pc := .top }
        have hb := h.bound i
        simp [inWindow, hpc] at hc
        omega
    -- exited
    · exact h

theorem runSched_inv (K N : Nat) (oracle : Nat → Bool) (hN : 0 < N) :
    ∀ (sch : List Nat) (cfg : SchedConfig), SchedInv N cfg →
      SchedInv N (runSched K N oracle sch cfg) := by
  intro sch
  induction sch with
  | nil => intro cfg h; exact h
  | cons wi rest ih =>
    intro cfg h
    exact ih _ (schedStep_inv hN h)

theorem initConfig_inv (N W : Nat) (hN : 0 < N) : SchedInv N (initConfig N W) := by
  refine ⟨by simp [initConfig], by simp [initConfig], ?_, ?_⟩
  · intro w hw
    rw [initConfig] at hw
    have := List.eq_of_mem_replicate hw
    rw [this]
    exact hN
  · intro i
    rw [initConfig]
    have hc : (List.replicate W (⟨.top, 0, false⟩ : Worker)).countP (inWindow i) = 0 := by
      rw [List.countP_eq_zero]
      intro w hw
      have := List.eq_of_mem_replicate hw
      rw [this]
      simp [inWindow]
    rw [hc]
    simp [List.getD_eq_getElem?_getD]

/-- C6: for every target index, once every worker has exited, the received
counter is at most the sent counter, under any interleaving of any number
of workers and any probe outcomes: a received increment always follows the
sent increment of the same draw, and a reverted draw never produces one. -/
theorem received_le_sent_at_rest (N K W : Nat) (oracle : Nat → Bool) (sch : List Nat)
    (hN : 0 < N)
    (hexit : ∀ w ∈ (runSched K N oracle sch (initConfig N W)).workers,
      w.pc = WorkerPc.exited) :
    ∀ i, (runSched K N oracle sch (initConfig N W)).received.getD i 0 ≤
      (runSched K N oracle sch (initConfig N W)).sent.getD i 0 := by
  intro i
  have h := (runSched_inv K N oracle hN sch (initConfig N W) (initConfig_inv N W hN)).bound i
  omega

/-- Witness for received_le_sent_at_rest: one worker, one target, bound 1,
all probes succeeding, run for its five steps to completion. -/
theorem received_le_sent_at_rest_witness :
    0 < 1 ∧
    (∀ w ∈ (runSched 1 1 (fun _ => true) [0, 0, 0, 0, 0] (initConfig 1 1)).workers,
      w.pc = WorkerPc.exited) ∧
    ∀ i, (runSched 1 1 (fun _ => true) [0, 0, 0, 0, 0] (initConfig 1 1)).received.getD i 0 ≤
      (runSched 1 1 (fun _ => true) [0, 0, 0, 0, 0] (initConfig 1 1)).sent.getD i 0 :=
  ⟨by decide, by decide,
    received_le_sent_at_rest 1 1 1 (fun _ => true) [0, 0, 0, 0, 0] (by decide) (by decide)⟩

/-! Exact single-worker run in bounded mode.  With one worker the t-th
loop iteration draws index t mod N and is always admitted while t < N*K,
so the sent table after t iterations follows a closed formula. -/

/-- Sent counters after t admitted iterations of a single worker. -/
def sentArr (N t : Nat) : List Nat :=
  (List.range N).map fun i => t / N + if i < t % N then 1 else 0

theorem runSched_append (K N : Nat) (oracle : Nat → Bool) :
    ∀ (l1 l2 : List Nat) (cfg : SchedConfig),
      runSched K N oracle (l1 ++ l2) cfg =
        runSched K N oracle l2 (runSched K N oracle l1 cfg) := by
  intro l1
  induction l1 with
  | nil => intro l2 cfg; rfl
  | cons a l ih => intro l2 cfg; rw [List.cons_append, runSched, runSched, ih]

theorem sentArr_zero (N : Nat) : sentArr N 0 = List.replicate N 0 := by
  rw [sentArr]
  rw [List.eq_replicate_iff]
  constructor
  · simp
  · intro b hb
    simp at hb
    obtain ⟨i, hi, hb⟩ := hb
    omega

theorem sentArr_getD {N t i : Nat} (hi : i < N) :
    (sentArr N t).getD i 0 = t / N + if i < t % N then 1 else 0 := by
  rw [sentArr, List.getD_eq_getElem?_getD, List.getElem?_map, List.getElem?_range hi]
  rfl

theorem map_range_set {f : Nat → Nat} {N k x : Nat} (hk : k < N) :
    ((List.range N).map f).set k x = (List.range N).map fun i => if i = k then x else f i := by
  apply List.ext_getElem?
  intro i
  by_cases hik : i = k
  · subst hik
    rw [List.getElem?_set_self (by simpa using hk)]
    simp [List.getElem?_map, List.getElem?_range hk]
  · rw [List.getElem?_set_ne (fun h => hik h.symm)]
    rcases Nat.lt_or_ge i N with hiN | hiN
    · simp [List.getElem?_map, List.getElem?_range hiN, hik]
    · have hnone : (List.range N)[i]? = none :=
        List.getElem?_eq_none (by simpa using hiN)
      simp [List.getElem?_map, hnone]

theorem succ_divmod (N t : Nat) (hN : 0 < N) :
    (t % N + 1 < N → (t + 1) / N = t / N ∧ (t + 1) % N = t % N + 1) ∧
    (t % N + 1 = N → (t + 1) / N = t / N + 1 ∧ (t + 1) % N = 0) := by
  have hdm := Nat.div_add_mod t N
  constructor
  · intro h
    have h1 : t + 1 = t % N + 1 + N * (t / N) := by omega
    constructor
    · rw [h1, Nat.add_mul_div_left _ _ hN, Nat.div_eq_of_lt h]
      omega
    · rw [h1, Nat.add_mul_mod_self_left, Nat.mod_eq_of_lt h]
  · intro h
    have hd : N * (t / N + 1) = N * (t / N) + N := by rw [Nat.mul_add, Nat.mul_one]
    have h1 : t + 1 = N * (t / N + 1) := by omega
    constructor
    · rw [h1, Nat.mul_div_cancel_left _ hN]
    · rw [h1, Nat.mul_mod_right]

theorem sentArr_set (N t : Nat) (hN : 0 < N) :
    (sentArr N t).set (t % N) (t / N + 1) = sentArr N (t + 1) := by
  rw [sentArr, sentArr, map_range_set (Nat.mod_lt t hN)]
  apply List.map_congr_left
  intro i hi
  rw [List.mem_range] at hi
  have hsd := succ_divmod N t hN
  have hr : t % N < N := Nat.mod_lt t hN
  by_cases hc : t % N + 1 < N
  · obtain ⟨hdiv, hmod⟩ := hsd.1 hc
    rw [hdiv, hmod]
    by_cases hik : i = t % N
    · subst hik
      simp
    · simp only [hik, if_false]
      by_cases hil : i < t % N
      · rw [if_pos hil, if_pos (by omega)]
      · rw [if_neg hil, if_neg (by omega)]
  · obtain ⟨hdiv, hmod⟩ := hsd.2 (by omega)
    rw [hdiv, hmod]
    by_cases hik : i = t % N
    · subst hik
      simp
    · simp only [hik, if_false]
      rw [if_pos (by omega), if_neg (by omega)]

theorem allDone_sentArr_false {N K t : Nat} (hN : 0 < N) (hK : 0 < K)
    (ht : t < N * K) : allDone K (sentArr N t) = false := by
  rw [allDone, List.all_eq_false]
  refine ⟨t / N + if N - 1 < t % N then 1 else 0, ?_, ?_⟩
  · rw [sentArr]
    exact List.mem_map.mpr ⟨N - 1, List.mem_range.mpr (by omega), rfl⟩
  · have hr : t % N < N := Nat.mod_lt t hN
    have hq : t / N < K := (Nat.div_lt_iff_lt_mul hN).mpr
      (by rw [Nat.mul_comm K N]; exact ht)
    have : ¬ (N - 1 < t % N) := by omega
    simp [this]
    omega

theorem allDone_sentArr_true {N K : Nat} (hN : 0 < N) :
    allDone K (sentArr N (N * K)) = true := by
  rw [allDone, List.all_eq_true]
  intro x hx
  rw [sentArr] at hx
  obtain ⟨i, hi, rfl⟩ := List.mem_map.mp hx
  rw [Nat.mul_div_cancel_left _ hN, Nat.mul_mod_right]
  simp

theorem run5 (N K : Nat) (oracle : Nat → Bool) (hN : 0 < N) (hK : 0 < K)
    (t : Nat) (ht : t < N * K) (recv : List Nat) (ix : Nat) (sc : Bool) :
    runSched K N oracle [0, 0, 0, 0, 0]
        ⟨t, sentArr N t, recv, false, t, [⟨.top, ix, sc⟩]⟩ =
      (if t + 1 = N * K then
        ⟨t + 1, sentArr N (t + 1),
          (if oracle t then recv.set (t % N) (recv.getD (t % N) 0 + 1) else recv),
          true, t + 1, [⟨.exited, t % N, oracle t⟩]⟩
      else
        ⟨t + 1, sentArr N (t + 1),
          (if oracle t then recv.set (t % N) (recv.getD (t % N) 0 + 1) else recv),
          false, t + 1, [⟨.top, t % N, oracle t⟩]⟩) := by
  have hq : t / N < K := (Nat.div_lt_iff_lt_mul hN).mpr
    (by rw [Nat.mul_comm K N]; exact ht)
  have s1 : schedStep K N oracle ⟨t, sentArr N t, recv, false, t, [⟨.top, ix, sc⟩]⟩ 0 =
      ⟨t + 1, sentArr N t, recv, false, t, [⟨.gate, t % N, sc⟩]⟩ := rfl
  have s2 : schedStep K N oracle
        ⟨t + 1, sentArr N t, recv, false, t, [⟨.gate, t % N, sc⟩]⟩ 0 =
      ⟨t + 1, sentArr N (t + 1), recv, false, t, [⟨.probe, t % N, sc⟩]⟩ := by
    rw [schedStep]
    simp only [List.getD_cons_zero]
    have hprev : (sentArr N t).getD (t % N) 0 = t / N := by
      rw [sentArr_getD (Nat.mod_lt t hN)]
      simp
    rw [hprev]
    rw [if_neg (by rintro ⟨_, hle⟩; omega)]
    rw [sentArr_set N t hN]
    rfl
  have s3 : schedStep K N oracle
        ⟨t + 1, sentArr N (t + 1), recv, false, t, [⟨.probe, t % N, sc⟩]⟩ 0 =
      ⟨t + 1, sentArr N (t + 1), recv, false, t + 1,
        [⟨.output, t % N, oracle t⟩]⟩ := rfl
  have s4 : schedStep K N oracle
        ⟨t + 1, sentArr N (t + 1), recv, false, t + 1,
          [⟨.output, t % N, oracle t⟩]⟩ 0 =
      ⟨t + 1, sentArr N (t + 1),
        (if oracle t then recv.set (t % N) (recv.getD (t % N) 0 + 1) else recv),
        false, t + 1, [⟨.postCheck, t % N, oracle t⟩]⟩ := rfl
  rw [runSched, runSched, runSched, runSched, runSched, runSched,
      s1, s2, s3, s4]
  by_cases h1 : t + 1 = N * K
  · rw [if_pos h1]
    rw [schedStep]
    simp only [List.getD_cons_zero]
    rw [if_pos ⟨hK, by rw [h1]; exact allDone_sentArr_true hN⟩]
    rfl
  · rw [if_neg h1]
    rw [schedStep]
    simp only [List.getD_cons_zero]
    rw [if_neg (by
      rintro ⟨_, hd⟩
      rw [allDone_sentArr_false hN hK (by omega)] at hd
      cases hd)]
    rfl

theorem runBlocks (N K : Nat) (oracle : Nat → Bool) (hN : 0 < N) (hK : 0 < K) :
    ∀ (j : Nat), 0 < j → ∀ (t : Nat), t + j = N * K →
      ∀ (recv : List Nat) (ix : Nat) (sc : Bool),
      ∃ recv2 ix2 sc2,
        runSched K N oracle (List.replicate (5 * j) 0)
            ⟨t, sentArr N t, recv, false, t, [⟨.top, ix, sc⟩]⟩ =
          ⟨N * K, sentArr N (N * K), recv2, true, N * K,
            [⟨.exited, ix2, sc2⟩]⟩ := by
  intro j
  induction j with
  | zero => intro h; omega
  | succ n ih =>
    intro _ t hsum recv ix sc
    have h5 : List.replicate (5 * (n + 1)) 0 = ([0, 0, 0, 0, 0] : List Nat) ++
        List.replicate (5 * n) 0 := by
      have he : 5 * (n + 1) = 5 + 5 * n := by omega
      rw [he, List.replicate_add]
      rfl
    rw [h5, runSched_append]
    rw [run5 N K oracle hN hK t (by omega) recv ix sc]
    by_cases h1 : t + 1 = N * K
    · rw [if_pos h1]
      have hn0 : n = 0 := by omega
      subst hn0
      refine ⟨if oracle t = true then recv.set (t % N) (recv.getD (t % N) 0 + 1) else recv,
        t % N, oracle t, ?_⟩
      rw [show (5 * 0 : Nat) = 0 from rfl]
      rw [show List.replicate 0 (0 : Nat) = [] from rfl]
      rw [runSched]
      rw [h1]
    · rw [if_neg h1]
      exact ih (by omega) (t + 1) (by omega) _ _ _

/-- C5: in bounded mode with repetition K and exactly one worker and no
external cancellation, the run terminates (the worker exits within
5*N*K atomic steps) with every sent counter equal to K, whatever the
probe outcomes. -/
theorem single_worker_bounded_run (N K : Nat) (oracle : Nat → Bool)
    (hN : 0 < N) (hK : 0 < K) :
    (∀ w ∈ (runSched K N oracle (List.replicate (5 * (N * K)) 0)
        (initConfig N 1)).workers, w.pc = WorkerPc.exited) ∧
    ∀ i < N, (runSched K N oracle (List.replicate (5 * (N * K)) 0)
        (initConfig N 1)).sent.getD i 0 = K := by
  have hinit : initConfig N 1 =
      ⟨0, sentArr N 0, List.replicate N 0, false, 0, [⟨.top, 0, false⟩]⟩ := by
    rw [initConfig, sentArr_zero]
    rfl
  obtain ⟨recv2, ix2, sc2, hrun⟩ := runBlocks N K oracle hN hK (N * K)
    (Nat.mul_pos hN hK) 0 (by omega) (List.replicate N 0) 0 false
  rw [hinit, hrun]
  constructor
  · intro w hw
    rw [List.mem_singleton] at hw
    rw [hw]
  · intro i hi
    rw [sentArr_getD hi, Nat.mul_div_cancel_left _ hN, Nat.mul_mod_right]
    simp

/-- Witness for single_worker_bounded_run with two targets, bound two and
all probes succeeding: twenty atomic steps finish the run. -/
theorem single_worker_bounded_run_witness :
    0 < 2 ∧ 0 < 2 ∧
    ((∀ w ∈ (runSched 2 2 (fun _ => true) (List.replicate (5 * (2 * 2)) 0)
        (initConfig 2 1)).workers, w.pc = WorkerPc.exited) ∧
    ∀ i < 2, (runSched 2 2 (fun _ => true) (List.replicate (5 * (2 * 2)) 0)
        (initConfig 2 1)).sent.getD i 0 = 2) :=
  ⟨by decide, by decide,
    single_worker_bounded_run 2 2 (fun _ => true) (by decide) (by decide)⟩

/-! Embedding of the target-building phase and the exit-code logic of
main.cpp.  Forward DNS resolution (resolve_to_ips in ping.cpp wraps
getaddrinfo) is an external collaborator and enters the model as an
oracle; likewise the whole probe phase is abstracted as a function from
the built target list to the final scheduler configuration, whose
received counters main.cpp sums for the final return. -/

/-- Letter test of the hostname heuristic. -/
def isAsciiLetter (c : Char) : Bool :=
  ('a' ≤ c && c ≤ 'z') || ('A' ≤ c && c ≤ 'Z')

/-- Common top-level-domain suffix list of ping.cpp. -/
def common_tlds : List Str :=
  [".com".data, ".net".data, ".org".data, ".edu".data, ".gov".data, ".mil".data,
   ".cn".data, ".uk".data, ".jp".data, ".de".data, ".fr".data, ".ru".data,
   ".info".data, ".biz".data, ".name".data, ".mobi".data, ".io".data, ".ai".data]

/-- is_possible_hostname from ping.cpp.  At the dash step the letter scan
has already returned, so its inner letter re-check is always false and a
dotted dash token is rejected as a probable numeric range. -/
def is_possible_hostname (s : Str) : Bool :=
  if s.isEmpty then false
  else if s.contains ',' then false
  else if s.contains '/' then false
  else if s.contains ':' && pton6 s then false
  else if s.contains '.' && (pton4 s).isSome then false
  else if s.any isAsciiLetter then true
  else if s.contains '-' then !s.contains '.'
  else if 2 ≤ s.countP (fun c => c = '.') then true
  else if common_tlds.any (fun tld => tld.isSuffixOf s) then true
  else if s = "localhost".data ∨ s = "LOCALHOST".data then true
  else false

/-- Default host cap of qping.h. -/
def MAX_HOSTS_DEFAULT : Nat := 65536

/-- Errors of the target-building phase; each one makes main return 2. -/
inductive BuildError
  | resolveFailure | enumFailure | noTargets | tooMany
deriving DecidableEq

/-- Token loop of main.cpp: hostname-shaped tokens go through the resolver
oracle (filtered by a forced family), the rest through enumerate_targets
with the force-dependent cap; excluded addresses are dropped. -/
def collectTargets (resolver : Str → Bool → List Str) (force_ipv4 force_ipv6 : Bool)
    (exclude : List Str) (force : Bool) : List Str → Except BuildError (List Str)
  | [] => .ok []
  | tok :: rest =>
    if is_possible_hostname tok then
      let resolved :=
        if force_ipv6 then (resolver tok true).filter (fun ip => ip.contains ':')
        else if force_ipv4 then (resolver tok false).filter (fun ip => !ip.contains ':')
        else resolver tok false
      if resolved.isEmpty then .error .resolveFailure
      else
        match collectTargets resolver force_ipv4 force_ipv6 exclude force rest with
        | .error e => .error e
        | .ok more => .ok ((resolved.filter fun ip => !exclude.contains ip) ++ more)
    else
      let r := enumerate_targets tok (if force then 2 ^ 32 - 1 else MAX_HOSTS_DEFAULT)
      if r.1 then
        match collectTargets resolver force_ipv4 force_ipv6 exclude force rest with
        | .error e => .error e
        | .ok more => .ok ((r.2.filter fun ip => !exclude.contains ip) ++ more)
      else .error .enumFailure

/-- Target-building phase of main.cpp including the emptiness and cap
checks after the token loop. -/
def buildTargets (resolver : Str → Bool → List Str) (force_ipv4 force_ipv6 : Bool)
    (exclude : List Str) (force : Bool) (tokens : List Str) :
    Except BuildError (List Str) :=
  match collectTargets resolver force_ipv4 force_ipv6 exclude force tokens with
  | .error e => .error e
  | .ok all =>
    if all.isEmpty then .error .noTargets
    else if !force && decide (MAX_HOSTS_DEFAULT < all.length) then .error .tooMany
    else .ok all

/-- Exit code of main.cpp: 2 on any target-building error, otherwise 0
when the summed received counters of the finished run are positive and 1
when they are zero. -/
def main_exit (resolver : Str → Bool → List Str) (force_ipv4 force_ipv6 : Bool)
    (exclude : List Str) (force : Bool) (tokens : List Str)
    (run : List Str → SchedConfig) : Nat :=
  match buildTargets resolver force_ipv4 force_ipv6 exclude force tokens with
  | .error _ => 2
  | .ok targets => if 0 < (run targets).received.sum then 0 else 1

/-- C8: the exit code is 0 exactly when the run completed with a positive
aggregate received count, 1 exactly when it completed with zero, and 2
exactly when the target-building phase failed; each of the four listed
error causes produces code 2, shown on an invalid token, a hostname with
empty resolution, a fully excluded target list, and symbolically for a
built list above the cap without force. -/
theorem exit_code_classification :
    (∀ resolver f4 f6 excl force tokens run,
      (main_exit resolver f4 f6 excl force tokens run = 0 ↔
        ∃ targets, buildTargets resolver f4 f6 excl force tokens = .ok targets ∧
          0 < (run targets).received.sum) ∧
      (main_exit resolver f4 f6 excl force tokens run = 1 ↔
        ∃ targets, buildTargets resolver f4 f6 excl force tokens = .ok targets ∧
          (run targets).received.sum = 0) ∧
      (main_exit resolver f4 f6 excl force tokens run = 2 ↔
        ∃ e, buildTargets resolver f4 f6 excl force tokens = .error e)) ∧
    (∀ resolver run,
      main_exit resolver false false [] false ["192.168.1.1/33".data] run = 2) ∧
    (∀ run, main_exit (fun _ _ => []) false false [] false
      ["example.com".data] run = 2) ∧
    (∀ resolver run, main_exit resolver false false ["1.2.3.4".data] false
      ["1.2.3.4".data] run = 2) ∧
    (∀ resolver f4 f6 excl tokens run all,
      collectTargets resolver f4 f6 excl false tokens = .ok all →
      MAX_HOSTS_DEFAULT < all.length →
      main_exit resolver f4 f6 excl false tokens run = 2) := by
  refine ⟨?_, fun resolver run => rfl, fun run => rfl, fun resolver run => rfl, ?_⟩
  · intro resolver f4 f6 excl force tokens run
    rw [main_exit]
    cases hb : buildTargets resolver f4 f6 excl force tokens with
    | error e =>
      dsimp only
      refine ⟨?_, ?_, ?_⟩ <;> simp
    | ok targets =>
      dsimp only
      by_cases hsum : 0 < (run targets).received.sum
      · rw [if_pos hsum]
        refine ⟨?_, ?_, ?_⟩
        · simp [hsum]
        · simp
          omega
        · simp
      · rw [if_neg hsum]
        refine ⟨?_, ?_, ?_⟩
        · simp [hsum]
        · simp
          omega
        · simp
  · intro resolver f4 f6 excl tokens run all hc hlen
    rw [main_exit, buildTargets, hc]
    dsimp only
    rw [if_neg (by
      intro he
      rw [List.isEmpty_iff] at he
      subst he
      simp [MAX_HOSTS_DEFAULT] at hlen)]
    rw [if_pos (by simp [hlen])]

end qping
